import Mathlib

/-!
Verification of hanamilsp, go-to-definition resolution.

A shallow embedding of the definition-resolution pipeline of `main.go`
(`GetDefinitionURI`, `GetPositionForMethodInFile`, the symbol locators and
`handleTextDocumentDefinition`) together with the properties of the
specification that concern them.

Go strings are modelled as lists of characters (`Str`), Go `int` as `Int`,
multiple return values as tuples, and a `(T, error)` result as
`T × Option GoError`.  The tree-sitter query facility and the file system
are external collaborators: they enter the model as the fields of `Env`.
-/

set_option maxRecDepth 100000

namespace Hanamilsp

/-- Go strings (valid UTF-8 text), as sequences of characters. -/
abbrev Str := List Char

/-! ## The parts of the Go standard library used by `main.go` -/

/-- strings.Trim(s, cutset): `s` without the leading and trailing
characters that occur in `cutset`. -/
def stringsTrim (s cutset : Str) : Str :=
  (s.dropWhile (fun c => cutset.contains c)).rdropWhile (fun c => cutset.contains c)

/-- strings.Cut(s, sep) for a one-character separator: the text before and
after the first `sep`, and whether `sep` occurs; `(s, "", false)` when it
does not. -/
def stringsCut (s : Str) (sep : Char) : Str × Str × Bool :=
  if s.contains sep then
    (s.takeWhile (fun c => c != sep), (s.dropWhile (fun c => c != sep)).tail, true)
  else
    (s, [], false)

/-- strings.Replace(s, old, new, -1) for one-character `old` and `new`. -/
def stringsReplace (s : Str) (old new : Char) : Str :=
  s.map (fun c => if c = old then new else c)

/-- strings.Split(s, sep) for a one-character separator: always at least
one piece, one more than the number of separators. -/
def stringsSplit : Str → Char → List Str
  | [], _ => [[]]
  | c :: cs, sep =>
    if c = sep then [] :: stringsSplit cs sep
    else
      match stringsSplit cs sep with
      | [] => [[c]]
      | piece :: pieces => (c :: piece) :: pieces

/-- strings.TrimPrefix(s, p). -/
def stringsTrimPrefix (s p : Str) : Str :=
  if p.isPrefixOf s then s.drop p.length else s

/-- The errors that travel through the pipeline: the three error structs of
`main.go`, errors.New(msg), an error reported by the operating system, and
fmt.Errorf(msg + ": %w", inner). -/
inductive GoError where
  | ErrorDocumentDoesNotExist (uri : Str)
  | ErrorLineOutOfDocumentRange (uri : Str) (line : Int)
  | ErrorCouldNotParseSymbolAndMethodName (uri : Str) (line : Int) (rawLine : Str)
  | errorsNew (msg : Str)
  | osError (path : Str)
  | wrapped (msg : Str) (inner : GoError)
  deriving DecidableEq, Repr

/-- Why a run stopped with a Go runtime panic. -/
inductive PanicReason where
  | indexOutOfRange (index : Int) (length : Nat)
  | regexpSyntax
  | queryRun
  deriving DecidableEq, Repr

/-- How a call ends: it returns, it panics, or it leaves the fragment of
regexp syntax that this development models. -/
inductive Outcome (α : Type) where
  | ret (a : α)
  | panic (reason : PanicReason)
  | unmodelled
  deriving DecidableEq, Repr

/-! ## regexp: the pattern rootURI + `/slices/(\w*)/`

`GetDefinitionURI` compiles the pattern rootURI + `/slices/(\w*)/`, so the
root URI is read as regexp syntax.  The model covers root URIs written with
ordinary characters and `.`; a root URI that starts with a repetition
operator is a syntax error ("missing argument to repetition operator"), on
which regexp.MustCompile panics; every other use of a special character is
left unmodelled. -/

/-- The characters with a meaning in regexp syntax (those that
regexp.QuoteMeta escapes). -/
def regexpSpecial : List Char :=
  [Char.ofNat 92, '.', '+', '*', '?', '(', ')', '|', '[', ']', Char.ofNat 123, Char.ofNat 125,
    '^', '$']

/-- One instruction of the compiled root part: a literal character, or `.`
(any character but a newline). -/
inductive PatItem where
  | lit (c : Char)
  | anyChar
  deriving DecidableEq, Repr

/-- Result of regexp.MustCompile on rootURI + `/slices/(\w*)/`. -/
inductive Compiled where
  | prog (root : List PatItem)
  | syntaxError
  | unmodelled
  deriving DecidableEq, Repr

/-- Translation of the root part, character by character; `none` when a
special character other than `.` occurs. -/
def compileRoot : Str → Option (List PatItem)
  | [] => some []
  | c :: cs =>
    if c = '.' then (compileRoot cs).map (fun items => PatItem.anyChar :: items)
    else if regexpSpecial.contains c then none
    else (compileRoot cs).map (fun items => PatItem.lit c :: items)

/-- regexp.MustCompile(rootURI + `/slices/(\w*)/`). -/
def regexpMustCompile (rootURI : Str) : Compiled :=
  match rootURI with
  | c :: _ =>
    if c = '*' ∨ c = '+' ∨ c = '?' then Compiled.syntaxError
    else
      match compileRoot rootURI with
      | some items => Compiled.prog items
      | none => Compiled.unmodelled
  | [] => Compiled.prog []

/-- Whether an instruction accepts a character. -/
def PatItem.accepts : PatItem → Char → Bool
  | PatItem.lit c, d => c == d
  | PatItem.anyChar, d => d != Char.ofNat 10

/-- Runs the instructions on the front of the input; the unread rest on
success. -/
def matchItems : List PatItem → Str → Option Str
  | [], s => some s
  | _ :: _, [] => none
  | p :: ps, c :: cs => if p.accepts c then matchItems ps cs else none

/-- The class `\w` of regexp: `[0-9A-Za-z_]`. -/
def isWordChar (c : Char) : Bool :=
  ('0' ≤ c && c ≤ '9') || ('A' ≤ c && c ≤ 'Z') || c == '_' || ('a' ≤ c && c ≤ 'z')

/-- The literal instructions for `/slices/`. -/
def slicesItems : List PatItem := "/slices/".toList.map PatItem.lit

/-- A match of the whole pattern that starts at the front of `s`: the
matched text and the text of group 1.  After the root part and `/slices/`
the greedy `\w*` takes the longest run of word characters; a shorter run
would need `/` where a word character stands, so backtracking finds nothing
more. -/
def matchHere (root : List PatItem) (s : Str) : Option (Str × Str) :=
  match matchItems (root ++ slicesItems) s with
  | none => none
  | some rest =>
    match rest.dropWhile isWordChar with
    | c :: _ =>
      if c = '/' then
        some (s.take (s.length - rest.length) ++ rest.takeWhile isWordChar ++ ['/'],
          rest.takeWhile isWordChar)
      else none
    | [] => none

/-- Method FindStringSubmatch of a compiled pattern: the leftmost match as
`[match, group 1]`, and nil (the empty list) when there is none. -/
def FindStringSubmatch (root : List PatItem) : Str → List Str
  | [] =>
    match matchHere root [] with
    | some (whole, group) => [whole, group]
    | none => []
  | c :: cs =>
    match matchHere root (c :: cs) with
    | some (whole, group) => [whole, group]
    | none => FindStringSubmatch root cs

/-! ## Path resolver (`GetDefinitionURI`, main.go 491-518) -/

/-- The map `SliceNames`; a key that is absent reads as `false`. -/
def SliceNames (name : Str) : Bool :=
  name = "domain".toList || name = "collaborations".toList

/-- The cutset of line 497: space, double quote and comma. -/
def trimCutset : Str := " \",".toList

/-- Lines 497-513 of `GetDefinitionURI`: the slice name and the module path
(the final value of `trimmedLine`) the call settles on; `none` stands for
the return with the error "unable to infer current slice name". -/
def sliceAndModulePath (currentLine currentURI rootURI : Str) : Outcome (Option (Str × Str)) :=
  let trimmedLine := stringsTrim currentLine trimCutset
  let cut := stringsCut trimmedLine '.'
  if cut.2.2 && SliceNames cut.1 then
    Outcome.ret (some (cut.1, cut.2.1))
  else
    match regexpMustCompile rootURI with
    | Compiled.syntaxError => Outcome.panic PanicReason.regexpSyntax
    | Compiled.unmodelled => Outcome.unmodelled
    | Compiled.prog re =>
      let found := FindStringSubmatch re currentURI
      if found.length < 2 then Outcome.ret none
      else Outcome.ret (some (found.getD 1 [], trimmedLine))

/-- The error of line 509. -/
def errSliceUnresolvable : GoError :=
  GoError.errorsNew "unable to infer current slice name".toList

/-- Function `GetDefinitionURI` of main.go. -/
def GetDefinitionURI (currentLine currentURI rootURI : Str) : Outcome (Str × Option GoError) :=
  match sliceAndModulePath currentLine currentURI rootURI with
  | Outcome.ret (some (sliceName, trimmedLine)) =>
    let destURIExtension := stringsReplace trimmedLine '.' '/' ++ ".rb".toList
    Outcome.ret (rootURI ++ "/slices/".toList ++ sliceName ++ "/".toList ++ destURIExtension, none)
  | Outcome.ret none => Outcome.ret ([], some errSliceUnresolvable)
  | Outcome.panic reason => Outcome.panic reason
  | Outcome.unmodelled => Outcome.unmodelled

/-! ## Protocol types (package lsp) and `analysis.LineRange` -/

/-- Type lsp.Position: a zero-based line and character. -/
structure Position where
  Line : Int
  Character : Int
  deriving DecidableEq, Repr

/-- Type lsp.Range. -/
structure Range where
  Start : Position
  End : Position
  deriving DecidableEq, Repr

/-- Type lsp.Location. -/
structure Location where
  URI : Str
  Range : Range
  deriving DecidableEq, Repr

/-- Type lsp.DefinitionRequest, reduced to the fields the handler reads:
`ID`, `Params.TextDocument.URI` and `Params.Position`. -/
structure DefinitionRequest where
  ID : Int
  URI : Str
  Position : Position
  deriving DecidableEq, Repr

/-- Type lsp.DefinitionResponse: the embedded lsp.Response (`RPC`, and `ID`,
a pointer that is nil in the zero value) and the `Result`. -/
structure DefinitionResponse where
  RPC : Str
  ID : Option Int
  Result : Location
  deriving DecidableEq, Repr

/-- The zero value lsp.DefinitionResponse{}, returned next to every error. -/
def zeroResponse : DefinitionResponse :=
  { RPC := [], ID := none,
    Result := { URI := [], Range := { Start := { Line := 0, Character := 0 },
                                      End := { Line := 0, Character := 0 } } } }

/-- Function `LineRange` of analysis/state.go. -/
def LineRange (line start stop : Int) : Range :=
  { Start := { Line := line, Character := start },
    End := { Line := line, Character := stop } }

/-! ## The syntax query facility and the file system

tree-sitter is an external collaborator.  A query run is represented by
the sequence of values that `qc.FilterPredicates(m, source)` takes for the
successive matches `m` of `qc.NextMatch()`: a match keeps its captures when
its predicates hold and comes back without captures when they fail. -/

/-- Type sitter.Point. -/
structure Point where
  Row : Nat
  Column : Nat
  deriving DecidableEq, Repr

/-- Type sitter.Range, reduced to its two points. -/
structure NodeRange where
  StartPoint : Point
  EndPoint : Point
  deriving DecidableEq, Repr

/-- A syntax node, as far as main.go looks at it: `Range()` and
`Content(source)`, the source text the node spans. -/
structure Node where
  Range : NodeRange
  Content : Str
  deriving DecidableEq, Repr

/-- Type sitter.QueryCapture. -/
structure QueryCapture where
  Index : Nat
  Node : Node
  deriving DecidableEq, Repr

/-- Type sitter.QueryMatch, reduced to its captures. -/
structure QueryMatch where
  Captures : List QueryCapture
  deriving DecidableEq, Repr

/-- The collaborators of the resolution engine.  Each query field gives, for
the source text parsed (and the name spliced into the pattern), the
predicate-filtered matches in query order:
`callQuery` for `(call receiver: (identifier) @a method: (identifier) @b)`,
`nodeQuery` for `(_) @node`, `depsQuery` for the `include Deps[...]`
pattern of `GetIncludeDepsLine` (captures `n_include` 0, `n_deps` 1,
`n_dep` 2, `k` 3, `k_dep` 4) and `methodQuery` for
`(method name: (identifier) @a (#match? @a ".*NAME"))`.
The patterns of `callQuery` and `nodeQuery` are constants and always run.
The other two patterns are built from a name, and their run can end in a
panic, for which the field answers `none`: main.go drops the error of
sitter.NewQuery, so when the pattern with the name spliced in is rejected
qc.Exec runs on the nil query; and qc.FilterPredicates compiles the name
with regexp.MustCompile, which panics on a name that is no regexp.
`readFile` is os.ReadFile and `stat` the error of os.Stat (`none` for nil). -/
structure Env where
  callQuery : Str → List QueryMatch
  nodeQuery : Str → List QueryMatch
  depsQuery : Str → Str → Option (List QueryMatch)
  methodQuery : Str → Str → Option (List QueryMatch)
  readFile : Str → Except GoError Str
  stat : Str → Option GoError

/-- Type analysis.State, without the logger. -/
structure State where
  Documents : Str → Option Str
  RootURI : Str

/-! ## The locators of main.go -/

/-- Function `GetIncludeDepsLine` (main.go 295-344): a panic when the query
built from `symbolName` cannot be run; otherwise the content of the last
capture with index 2 or 4 over all matches, "" when there is none. -/
def GetIncludeDepsLine (env : Env) (document symbolName : Str) : Outcome Str :=
  match env.depsQuery document symbolName with
  | none => Outcome.panic PanicReason.queryRun
  | some found =>
    let capturedNode : Option Node :=
      found.foldl
        (fun acc m => m.Captures.foldl
          (fun acc c => if c.Index = 2 ∨ c.Index = 4 then some c.Node else acc) acc)
        none
    match capturedNode with
    | none => Outcome.ret []
    | some node => Outcome.ret node.Content

/-- Function `GetSymbolNameToLookup` (main.go 346-393): the content of the
last captured node whose column range contains the cursor character. -/
def GetSymbolNameToLookup (env : Env) (line : Str) (position : Position) : Str :=
  let matchesInRange : List Node :=
    (env.nodeQuery line).foldl
      (fun acc m => m.Captures.foldl
        (fun acc c =>
          if position.Character ≥ (c.Node.Range.StartPoint.Column : Int) ∧
              position.Character ≤ (c.Node.Range.EndPoint.Column : Int) then acc ++ [c.Node]
          else acc) acc)
      []
  match matchesInRange.getLast? with
  | none => []
  | some mostSpecificNode => mostSpecificNode.Content

/-- The loop of `GetSymbolAndMethodNameToLookup` (main.go 416-437) over the
remaining matches, with the current values of `sym` and `method`. -/
def symbolAndMethodLoop (position : Position) : List QueryMatch → Str × Str → Str × Str
  | [], acc => acc
  | m :: ms, acc =>
    match m.Captures with
    | [a, b] =>
      if position.Character ≥ (a.Node.Range.StartPoint.Column : Int) ∧
          position.Character ≤ (b.Node.Range.EndPoint.Column : Int) then
        symbolAndMethodLoop position ms (a.Node.Content, b.Node.Content)
      else symbolAndMethodLoop position ms acc
    | _ => acc

/-- Function `GetSymbolAndMethodNameToLookup` (main.go 395-440). -/
def GetSymbolAndMethodNameToLookup (env : Env) (line : Str) (position : Position) : Str × Str :=
  symbolAndMethodLoop position (env.callQuery line) ([], [])

/-- The error of main.go line 481. -/
def errMethodUnresolved (methodName uri : Str) : GoError :=
  GoError.errorsNew ("unable to resolve method with name '".toList ++ methodName ++
    "' in file '".toList ++ uri ++ "'".toList)

/-- The loop of `GetPositionForMethodInFile` (main.go 470-486) over the
remaining matches, with the current value of `pos`. -/
def methodLoop (uri methodName : Str) : List QueryMatch → Position → Position × Option GoError
  | [], pos => (pos, none)
  | m :: ms, pos =>
    match m.Captures with
    | [c] =>
      methodLoop uri methodName ms
        { Line := c.Node.Range.StartPoint.Row, Character := c.Node.Range.StartPoint.Column }
    | _ => (pos, some (errMethodUnresolved methodName uri))

/-- Function `GetPositionForMethodInFile` (main.go 442-489): the early return
for an empty name, the error of os.ReadFile, a panic when the query built
from `methodName` cannot be run, and otherwise the loop over its matches. -/
def GetPositionForMethodInFile (env : Env) (uri methodName : Str) :
    Outcome (Position × Option GoError) :=
  let pos : Position := { Line := 0, Character := 0 }
  if methodName = [] then Outcome.ret (pos, none)
  else
    match env.readFile (stringsTrimPrefix uri "file://".toList) with
    | Except.error err =>
      Outcome.ret (pos, some (GoError.wrapped "error GetLineNumForMethodInFile".toList err))
    | Except.ok documentText =>
      match env.methodQuery documentText methodName with
      | none => Outcome.panic PanicReason.queryRun
      | some found => Outcome.ret (methodLoop uri methodName found pos)

/-- Function `StatURI` (main.go 520-523), reduced to its error. -/
def StatURI (env : Env) (input : Str) : Option GoError :=
  env.stat (stringsTrimPrefix input "file://".toList)

/-! ## The orchestrator (`handleTextDocumentDefinition`, main.go 223-293) -/

/-- The index expression `xs[i]` on a slice: `none` stands for the runtime
panic "index out of range". -/
def sliceIndex {α : Type} (xs : List α) (i : Int) : Option α :=
  if 0 ≤ i then xs.get? i.toNat else none

/-- The error of main.go line 254. -/
def errNoDepsMatch (symbolName : Str) : GoError :=
  GoError.errorsNew ("no match found for '".toList ++ symbolName ++
    "' in 'Deps' include list".toList)

/-- The symbol the handler looks up (main.go 237-244): the receiver of the
paired locator, or the result of the symbol-only locator when that is "". -/
def lookupSymbol (env : Env) (currentLine : Str) (position : Position) : Str :=
  if (GetSymbolAndMethodNameToLookup env currentLine position).1 = [] then
    GetSymbolNameToLookup env currentLine position
  else (GetSymbolAndMethodNameToLookup env currentLine position).1

/-- Lines 250-293 of `handleTextDocumentDefinition`: the stages that follow
the symbol location, from the lookup of the Deps declaration on.  The error
of `GetPositionForMethodInFile` is logged and not returned. -/
def stagesFromDepsLookup (env : Env) (state : State) (request : DefinitionRequest)
    (document symbolName methodName : Str) : Outcome (DefinitionResponse × Option GoError) :=
  match GetIncludeDepsLine env document symbolName with
  | Outcome.panic reason => Outcome.panic reason
  | Outcome.unmodelled => Outcome.unmodelled
  | Outcome.ret depsLine =>
    if depsLine = [] then Outcome.ret (zeroResponse, some (errNoDepsMatch symbolName))
    else
      match GetDefinitionURI depsLine request.URI state.RootURI with
      | Outcome.panic reason => Outcome.panic reason
      | Outcome.unmodelled => Outcome.unmodelled
      | Outcome.ret (_, some err) => Outcome.ret (zeroResponse, some err)
      | Outcome.ret (destinationURI, none) =>
        match StatURI env destinationURI with
        | some err => Outcome.ret (zeroResponse, some err)
        | none =>
          match GetPositionForMethodInFile env destinationURI methodName with
          | Outcome.panic reason => Outcome.panic reason
          | Outcome.unmodelled => Outcome.unmodelled
          | Outcome.ret (pos, _) =>
            Outcome.ret
              ({ RPC := "2.0".toList, ID := some request.ID,
                 Result := { URI := destinationURI,
                             Range := LineRange pos.Line pos.Character pos.Character } },
                none)

/-- Method `handleTextDocumentDefinition` of the handler (main.go 223-293). -/
def handleTextDocumentDefinition (env : Env) (state : State) (request : DefinitionRequest) :
    Outcome (DefinitionResponse × Option GoError) :=
  let uri := request.URI
  match state.Documents uri with
  | none => Outcome.ret (zeroResponse, some (GoError.ErrorDocumentDoesNotExist uri))
  | some document =>
    let lines := stringsSplit document (Char.ofNat 10)
    let curLineNum := request.Position.Line
    if curLineNum > lines.length then
      Outcome.ret (zeroResponse, some (GoError.ErrorLineOutOfDocumentRange uri curLineNum))
    else
      match sliceIndex lines curLineNum with
      | none => Outcome.panic (PanicReason.indexOutOfRange curLineNum lines.length)
      | some currentLine =>
        let methodName := (GetSymbolAndMethodNameToLookup env currentLine request.Position).2
        let symbolName := lookupSymbol env currentLine request.Position
        if symbolName = [] ∧ methodName = [] then
          Outcome.ret (zeroResponse,
            some (GoError.ErrorCouldNotParseSymbolAndMethodName uri curLineNum []))
        else stagesFromDepsLookup env state request document symbolName methodName

/-! ## A small project, in the shape of the test fixture -/

/-- Root URI of the sample project. -/
def sampleRootURI : Str := "file:///root".toList

/-- URI of the sample document. -/
def sampleURI : Str :=
  "file:///root/slices/domain/operations/commands/create_published_goal.rb".toList

/-- Line 5 of the sample document, a bare entry of the Deps list. -/
def sampleDepsLine : Str := "          \"operations.transaction\",".toList

/-- Line 9 of the sample document, a call on a dependency. -/
def sampleCallLine : Str := "          validate_relationships.call(goal)".toList

/-- The sample document: 15 lines. -/
def sampleDocument : Str :=
  "module Domain\n  module Operations\n    module Commands\n".toList ++
  "      class CreatePublishedGoal\n        include Deps[\n".toList ++
  sampleDepsLine ++ "\n".toList ++
  "          \"operations.commands.services.validate_relationships\"\n".toList ++
  "        ]\n        def call(goal)\n".toList ++
  sampleCallLine ++ "\n".toList ++
  "        end\n      end\n    end\n  end\nend".toList

/-- The file behind `validate_relationships`: two methods, `initialize` and `call`. -/
def sampleTarget : Str :=
  "class ValidateRelationships\n  def initialize\n  end\n  def call(goal)\n  end\nend".toList

/-- A node on one row. -/
def sampleNode (row startColumn endColumn : Nat) (content : Str) : Node :=
  { Range := { StartPoint := { Row := row, Column := startColumn },
               EndPoint := { Row := row, Column := endColumn } },
    Content := content }

/-- A name with a double quote: spliced into a pattern it ends the string of
the predicate early, sitter.NewQuery rejects the pattern and the run ends in
a panic. -/
def hasQuote (name : Str) : Bool := name.contains (Char.ofNat 34)

/-- A name with an opening parenthesis that is never closed: it is no
regexp, so the run panics as soon as a match reaches qc.FilterPredicates. -/
def hasOpenParen (name : Str) : Bool := name.contains '(' && !name.contains ')'

/-- The captures `n_include`, `n_deps` and `n_dep` of one entry of the Deps list. -/
def sampleDepsMatch (row : Nat) (content : Str) : QueryMatch :=
  { Captures := [
      QueryCapture.mk 0 (sampleNode 4 8 15 "include".toList),
      QueryCapture.mk 1 (sampleNode 4 16 20 "Deps".toList),
      QueryCapture.mk 2 (sampleNode row 11 (11 + content.length) content)] }

/-- The collaborators for the sample project: what the queries of main.go
yield on the sample texts, and a file system that holds the two targets. -/
def sampleEnv : Env :=
  { callQuery := fun line =>
      if line = sampleCallLine then
        [{ Captures := [
            QueryCapture.mk 0 (sampleNode 0 10 32 "validate_relationships".toList),
            QueryCapture.mk 1 (sampleNode 0 33 37 "call".toList)] }]
      else [],
    nodeQuery := fun line =>
      if line = sampleDepsLine then
        [{ Captures := [QueryCapture.mk 0 (sampleNode 0 0 35 sampleDepsLine)] },
         { Captures := [QueryCapture.mk 0
            (sampleNode 0 10 34 "\"operations.transaction\"".toList)] },
         { Captures := [QueryCapture.mk 0 (sampleNode 0 11 33 "operations.transaction".toList)] }]
      else [],
    depsQuery := fun document symbolName =>
      if hasQuote symbolName then none
      else if document = sampleDocument ∧ hasOpenParen symbolName then none
      else if document = sampleDocument ∧ symbolName = "operations.transaction".toList then
        some [sampleDepsMatch 5 "operations.transaction".toList, { Captures := [] }]
      else if document = sampleDocument ∧ symbolName = "validate_relationships".toList then
        some [{ Captures := [] },
          sampleDepsMatch 6 "operations.commands.services.validate_relationships".toList]
      else some [],
    methodQuery := fun documentText methodName =>
      if hasQuote methodName then none
      else if documentText = sampleTarget ∧ hasOpenParen methodName then none
      else if documentText = sampleTarget ∧ methodName = "call".toList then
        some [{ Captures := [] },
          { Captures := [QueryCapture.mk 0 (sampleNode 3 6 10 "call".toList)] }]
      else some [],
    readFile := fun path =>
      if path = "/root/slices/domain/operations/commands/services/validate_relationships.rb".toList
      then Except.ok sampleTarget
      else Except.error (GoError.osError path),
    stat := fun path =>
      if path = "/root/slices/domain/operations/commands/services/validate_relationships.rb".toList
          ∨ path = "/root/slices/domain/operations/transaction.rb".toList
      then none
      else some (GoError.osError path) }

/-- The session state: the sample document is open. -/
def sampleState : State :=
  { Documents := fun uri => if uri = sampleURI then some sampleDocument else none,
    RootURI := sampleRootURI }

/-- A definition request on the sample document. -/
def sampleRequest (line character : Int) : DefinitionRequest :=
  { ID := 1, URI := sampleURI, Position := { Line := line, Character := character } }

/-! ## Vocabulary of the specification of the path resolver -/

/-- The trimmed declaration carries an explicit slice qualifier: it reads
`slice.rest` with `slice` a known slice name. -/
def hasExplicitSlice (trimmed : Str) : Prop :=
  ∃ slice rest, trimmed = slice ++ '.' :: rest ∧ SliceNames slice = true

/-- The current URI contains rootURI + "/slices/" + w + "/" for a (possibly
empty) run `w` of word characters. -/
def hasSliceOccurrence (rootURI currentURI : Str) : Prop :=
  ∃ pre w post, (∀ c ∈ w, isWordChar c = true) ∧
    currentURI = pre ++ (rootURI ++ "/slices/".toList ++ w ++ '/' :: post)

/-! ## Collaborators for the method locator -/

/-- Collaborators for the method locator alone: every file is readable and
the method query reports the given predicate-filtered matches; a name that
breaks the pattern, or that is no regexp when there is a match to filter,
makes the run panic. -/
def methodEnv (found : List QueryMatch) : Env :=
  { callQuery := fun _ => [], nodeQuery := fun _ => [], depsQuery := fun _ _ => some [],
    methodQuery := fun _ methodName =>
      if hasQuote methodName || (!found.isEmpty && hasOpenParen methodName) then none
      else some found,
    readFile := fun _ => Except.ok [], stat := fun _ => none }

/-- A match of the method query: the name node of a declaration at the
given row and column. -/
def methodMatch (row column : Nat) (name : Str) : QueryMatch :=
  { Captures := [QueryCapture.mk 0 (sampleNode row column (column + name.length) name)] }

/-! ## Vocabulary of the specification of the symbol locators

tree-sitter reports the end point of a node as the position just after its
last character: a node whose last character stands at column `e` of its row
has the end column `e + 1`. -/

/-- The captures of a sequence of matches, in query order. -/
def allCaptures : List QueryMatch → List QueryCapture
  | [] => []
  | m :: ms => m.Captures ++ allCaptures ms

/-- The column range [start column, end column] of the node contains the
cursor character. -/
def columnsContain (position : Position) (node : Node) : Bool :=
  decide ((node.Range.StartPoint.Column : Int) ≤ position.Character ∧
    position.Character ≤ (node.Range.EndPoint.Column : Int))

/-- The span of a receiver.method match, from the start column of the
receiver to the end column of the method, contains the cursor character. -/
def spanContains (position : Position) (m : QueryMatch) : Bool :=
  match m.Captures with
  | [a, b] =>
    decide ((a.Node.Range.StartPoint.Column : Int) ≤ position.Character ∧
      position.Character ≤ (b.Node.Range.EndPoint.Column : Int))
  | _ => false

/-- The (receiver, method) text of a receiver.method match. -/
def pairText (m : QueryMatch) : Str × Str :=
  match m.Captures with
  | [a, b] => (a.Node.Content, b.Node.Content)
  | _ => ([], [])

/-- The line of the first case of TestGetSymbolAndMethodNameToLookup. -/
def testCallLine : Str :=
  "goal_result = yield with_failure_prefix.call(prefix: \"goal\")".toList

/-- The line of the case "sym and method not found". -/
def testStringLine : Str := "\"operations.with_failure_prefix\"".toList

/-- A line with two calls. -/
def testMultiCallLine : Str :=
  "          goal_metadata = metadata_repo.build(goal_repo.find(goal_id))".toList

/-- The line of TestGetSymbolNameToLookup. -/
def testSymbolLine : Str := "           goal, key_results = transaction.call do".toList

/-- A receiver.method match on row 0: the receiver starts at the given
column, the method follows the dot. -/
def callMatch (column : Nat) (receiver method : Str) : QueryMatch :=
  { Captures := [
      QueryCapture.mk 0 (sampleNode 0 column (column + receiver.length) receiver),
      QueryCapture.mk 1 (sampleNode 0 (column + receiver.length + 1)
        (column + receiver.length + 1 + method.length) method)] }

/-- A match of the query `(_) @node` on row 0. -/
def nodeMatch (startColumn endColumn : Nat) (content : Str) : QueryMatch :=
  { Captures := [QueryCapture.mk 0 (sampleNode 0 startColumn endColumn content)] }

/-- Collaborators for the test lines: the calls and the nodes that the
queries report on them, and nothing else. -/
def locatorEnv : Env :=
  { callQuery := fun line =>
      if line = testCallLine then
        [callMatch 20 "with_failure_prefix".toList "call".toList]
      else if line = testMultiCallLine then
        [callMatch 26 "metadata_repo".toList "build".toList,
         callMatch 46 "goal_repo".toList "find".toList]
      else [],
    nodeQuery := fun line =>
      if line = testSymbolLine then
        [nodeMatch 0 50 testSymbolLine,
         nodeMatch 11 50 "goal, key_results = transaction.call do".toList,
         nodeMatch 11 28 "goal, key_results".toList,
         nodeMatch 11 15 "goal".toList,
         nodeMatch 17 28 "key_results".toList,
         nodeMatch 31 50 "transaction.call do".toList,
         nodeMatch 31 42 "transaction".toList,
         nodeMatch 43 47 "call".toList,
         nodeMatch 48 50 "do".toList]
      else [],
    depsQuery := fun _ symbolName => if hasQuote symbolName then none else some [],
    methodQuery := fun _ methodName => if hasQuote methodName then none else some [],
    readFile := fun path => Except.error (GoError.osError path),
    stat := fun path => some (GoError.osError path) }

/-- Line 74 of the padded document: an identifier at columns 8 to 11. -/
def paddedLine : Str := "        goal".toList

/-- A document of 75 lines: 74 empty lines and `paddedLine`. -/
def paddedDocument : Str := List.replicate 74 (Char.ofNat 10) ++ paddedLine

/-- The session state with the padded document open. -/
def paddedState : State :=
  { Documents := fun uri => if uri = sampleURI then some paddedDocument else none,
    RootURI := sampleRootURI }

/-- Collaborators for the padded document: the line `paddedLine` parses to
the program and its identifier, both at columns 8 to 12, and holds no call;
the document has no Deps list; no file exists. -/
def paddedEnv : Env :=
  { callQuery := fun _ => [],
    nodeQuery := fun line =>
      if line = paddedLine then [nodeMatch 8 12 "goal".toList, nodeMatch 8 12 "goal".toList]
      else [],
    depsQuery := fun _ symbolName => if hasQuote symbolName then none else some [],
    methodQuery := fun _ methodName => if hasQuote methodName then none else some [],
    readFile := fun path => Except.error (GoError.osError path),
    stat := fun path => some (GoError.osError path) }

/-! ## Lemmas on the string functions -/

theorem takeWhile_ne_append {a b : Str} {sep : Char} (h : sep ∉ a) :
    (a ++ sep :: b).takeWhile (fun c => c != sep) = a := by
  induction a with
  | nil => simp [List.takeWhile]
  | cons x xs ih =>
    have hx : x ≠ sep := fun e => h (by simp [e])
    have hxs : sep ∉ xs := fun e => h (by simp [e])
    have hb : (x != sep) = true := by simp [hx]
    simp [List.takeWhile, hb, ih hxs]

theorem dropWhile_ne_append {a b : Str} {sep : Char} (h : sep ∉ a) :
    (a ++ sep :: b).dropWhile (fun c => c != sep) = sep :: b := by
  induction a with
  | nil => simp [List.dropWhile]
  | cons x xs ih =>
    have hx : x ≠ sep := fun e => h (by simp [e])
    have hxs : sep ∉ xs := fun e => h (by simp [e])
    have hb : (x != sep) = true := by simp [hx]
    simp [List.dropWhile, hb, ih hxs]

theorem stringsCut_append {a b : Str} {sep : Char} (h : sep ∉ a) :
    stringsCut (a ++ sep :: b) sep = (a, b, true) := by
  simp [stringsCut, takeWhile_ne_append h, dropWhile_ne_append h]

theorem SliceNames_iff (name : Str) :
    SliceNames name = true ↔ name = "domain".toList ∨ name = "collaborations".toList := by
  simp [SliceNames]

theorem dot_not_mem_of_SliceNames {name : Str} (h : SliceNames name = true) : '.' ∉ name := by
  rcases (SliceNames_iff name).1 h with e | e <;> subst e <;> decide

theorem dropWhile_append_of_all {P : Char → Bool} {p : Str} (x : Str)
    (h : ∀ c ∈ p, P c = true) : (p ++ x).dropWhile P = x.dropWhile P := by
  induction p with
  | nil => rfl
  | cons a as ih =>
    have ha : P a = true := h a (by simp)
    have has : ∀ c ∈ as, P c = true := fun c hc => h c (by simp [hc])
    simp [List.dropWhile, ha, ih has]

theorem rdropWhile_append_of_all {P : Char → Bool} {s : Str} (x : Str)
    (h : ∀ c ∈ s, P c = true) : (x ++ s).rdropWhile P = x.rdropWhile P := by
  have hr : ∀ c ∈ s.reverse, P c = true := fun c hc => h c (by simpa using hc)
  simp [List.rdropWhile, dropWhile_append_of_all x.reverse hr]

theorem dropWhile_eq_nil_of_all {P : Char → Bool} {s : Str}
    (h : ∀ c ∈ s, P c = true) : s.dropWhile P = [] := by
  simpa using dropWhile_append_of_all (P := P) [] h

theorem rdropWhile_dropWhile_append {P : Char → Bool} {s : Str} (d : Str)
    (h : ∀ c ∈ s, P c = true) :
    ((d ++ s).dropWhile P).rdropWhile P = (d.dropWhile P).rdropWhile P := by
  induction d with
  | nil => simp [dropWhile_eq_nil_of_all h]
  | cons a as ih =>
    by_cases ha : P a = true
    · simpa [List.dropWhile, ha] using ih
    · have ha2 : P a = false := by simpa using ha
      have e : (a :: as ++ s).dropWhile P = (a :: as) ++ s := by
        simp [List.dropWhile, ha2]
      have e2 : (a :: as).dropWhile P = a :: as := by
        simp [List.dropWhile, ha2]
      rw [e, e2]
      exact rdropWhile_append_of_all _ h

/-- Trimming ignores a frame written with characters of the cutset. -/
theorem stringsTrim_frame (p d s cutset : Str)
    (hp : ∀ c ∈ p, c ∈ cutset) (hs : ∀ c ∈ s, c ∈ cutset) :
    stringsTrim (p ++ d ++ s) cutset = stringsTrim d cutset := by
  have hp2 : ∀ c ∈ p, (fun c => cutset.contains c) c = true := fun c hc => by
    simpa using hp c hc
  have hs2 : ∀ c ∈ s, (fun c => cutset.contains c) c = true := fun c hc => by
    simpa using hs c hc
  unfold stringsTrim
  rw [List.append_assoc, dropWhile_append_of_all _ hp2, rdropWhile_dropWhile_append _ hs2]

theorem stringsReplace_injective {a b : Str} (ha : '/' ∉ a) (hb : '/' ∉ b)
    (h : stringsReplace a '.' '/' = stringsReplace b '.' '/') : a = b := by
  induction a generalizing b with
  | nil =>
    cases b with
    | nil => rfl
    | cons y ys => simp [stringsReplace] at h
  | cons x xs ih =>
    cases b with
    | nil => simp [stringsReplace] at h
    | cons y ys =>
      have hx : x ≠ '/' := fun e => ha (by simp [e])
      have hy : y ≠ '/' := fun e => hb (by simp [e])
      have hxs : '/' ∉ xs := fun e => ha (by simp [e])
      have hys : '/' ∉ ys := fun e => hb (by simp [e])
      simp only [stringsReplace, List.map_cons, List.cons.injEq] at h
      obtain ⟨h1, h2⟩ := h
      have hxy : x = y := by
        by_cases ex : x = '.' <;> by_cases ey : y = '.'
        · rw [ex, ey]
        · rw [if_pos ex, if_neg ey] at h1
          exact absurd h1.symm hy
        · rw [if_neg ex, if_pos ey] at h1
          exact absurd h1 hx
        · rw [if_neg ex, if_neg ey] at h1
          exact h1
      rw [hxy, ih hxs hys h2]

theorem append_sep_inj {a b c d : Str} {sep : Char} (ha : sep ∉ a) (hc : sep ∉ c)
    (h : a ++ sep :: b = c ++ sep :: d) : a = c ∧ b = d := by
  have h1 := takeWhile_ne_append (b := b) ha
  have h2 := dropWhile_ne_append (b := b) ha
  rw [h, takeWhile_ne_append hc] at h1
  rw [h, dropWhile_ne_append hc] at h2
  exact ⟨h1.symm, by simpa using h2.symm⟩

/-! ## Lemmas on the regexp model -/

theorem matchItems_lits (l s rest : Str) :
    matchItems (l.map PatItem.lit) s = some rest ↔ s = l ++ rest := by
  induction l generalizing s with
  | nil => simp [matchItems, eq_comm]
  | cons x xs ih =>
    cases s with
    | nil => simp [matchItems]
    | cons c cs =>
      by_cases hxc : x = c
      · subst hxc
        simp [matchItems, PatItem.accepts, ih]
      · simp only [List.map_cons, matchItems, PatItem.accepts, beq_iff_eq, hxc, if_false,
          List.cons_append, List.cons.injEq, false_iff, not_and]
        constructor
        · intro e
          cases e
        · rintro ⟨e, _⟩
          exact absurd e.symm hxc

theorem matchItems_append (xs ys : List PatItem) (s : Str) :
    matchItems (xs ++ ys) s = (matchItems xs s).bind (matchItems ys) := by
  induction xs generalizing s with
  | nil => simp [matchItems]
  | cons x xs ih =>
    cases s with
    | nil => simp [matchItems]
    | cons c cs =>
      by_cases h : x.accepts c = true
      · simp [matchItems, h, ih]
      · simp [matchItems, h]

/-- A root URI whose special characters are all `.` compiles, and the
program reads the root URI itself off the front of any text. -/
theorem compileRoot_self (root : Str) (h : ∀ c ∈ root, c = '.' ∨ c ∉ regexpSpecial) :
    ∃ items, compileRoot root = some items ∧ ∀ x, matchItems items (root ++ x) = some x := by
  induction root with
  | nil => exact ⟨[], rfl, fun x => by simp [matchItems]⟩
  | cons c cs ih =>
    obtain ⟨items, hc, hm⟩ := ih (fun d hd => h d (by simp [hd]))
    by_cases hdot : c = '.'
    · subst hdot
      refine ⟨PatItem.anyChar :: items, by simp [compileRoot, hc], fun x => ?_⟩
      have : PatItem.anyChar.accepts '.' = true := by decide
      simp [matchItems, this, hm]
    · have hns : c ∉ regexpSpecial := (h c (by simp)).resolve_left hdot
      have hns2 : regexpSpecial.contains c = false := by simpa using hns
      refine ⟨PatItem.lit c :: items, by simp [compileRoot, hdot, hns, hns2, hc], fun x => ?_⟩
      simp [matchItems, PatItem.accepts, hm]

theorem compileRoot_literal (root : Str) (h : ∀ c ∈ root, c ∉ regexpSpecial) :
    compileRoot root = some (root.map PatItem.lit) := by
  induction root with
  | nil => rfl
  | cons c cs ih =>
    have hns : c ∉ regexpSpecial := h c (by simp)
    have hns2 : regexpSpecial.contains c = false := by simpa using hns
    have hdot : c ≠ '.' := fun e => hns (by rw [e]; decide)
    simp [compileRoot, hdot, hns, hns2, ih (fun d hd => h d (by simp [hd]))]

theorem regexpMustCompile_of_compileRoot {root : Str} {items : List PatItem}
    (h : ∀ c ∈ root, c = '.' ∨ c ∉ regexpSpecial) (hc : compileRoot root = some items) :
    regexpMustCompile root = Compiled.prog items := by
  cases root with
  | nil =>
    simp [compileRoot] at hc
    simp [regexpMustCompile, hc]
  | cons c cs =>
    have hrep : ¬ (c = '*' ∨ c = '+' ∨ c = '?') := by
      rcases h c (by simp) with e | e
      · rw [e]; decide
      · rintro (e2 | e2 | e2) <;> exact e (by rw [e2]; decide)
    simp [regexpMustCompile, hrep, hc]

theorem dropWhile_word_run {w : Str} (post : Str) (hw : ∀ c ∈ w, isWordChar c = true) :
    (w ++ '/' :: post).dropWhile isWordChar = '/' :: post := by
  rw [dropWhile_append_of_all _ hw]
  have : isWordChar '/' = false := by decide
  simp [List.dropWhile, this]

theorem takeWhile_word_run {w : Str} (post : Str) (hw : ∀ c ∈ w, isWordChar c = true) :
    (w ++ '/' :: post).takeWhile isWordChar = w := by
  induction w with
  | nil =>
    have : isWordChar '/' = false := by decide
    simp [List.takeWhile, this]
  | cons a as ih =>
    have ha : isWordChar a = true := hw a (by simp)
    simp [List.takeWhile, ha, ih (fun c hc => hw c (by simp [hc]))]

theorem matchHere_of_run {items : List PatItem} {s w post : Str}
    (hm : matchItems (items ++ slicesItems) s = some (w ++ '/' :: post))
    (hw : ∀ c ∈ w, isWordChar c = true) :
    ∃ whole, matchHere items s = some (whole, w) := by
  simp [matchHere, hm, dropWhile_word_run post hw, takeWhile_word_run post hw]

theorem run_of_matchHere {items : List PatItem} {s whole g : Str}
    (h : matchHere items s = some (whole, g)) :
    ∃ post, matchItems (items ++ slicesItems) s = some (g ++ '/' :: post) ∧
      ∀ c ∈ g, isWordChar c = true := by
  unfold matchHere at h
  cases hm : matchItems (items ++ slicesItems) s with
  | none => simp [hm] at h
  | some rest =>
    rw [hm] at h
    cases hd : rest.dropWhile isWordChar with
    | nil => simp [hd] at h
    | cons c post =>
      simp only [hd] at h
      by_cases hc : c = '/'
      · subst hc
        simp only [if_true, Option.some.injEq, Prod.mk.injEq] at h
        refine ⟨post, ?_, ?_⟩
        · have := List.takeWhile_append_dropWhile isWordChar rest
          rw [hd, h.2] at this
          rw [this]
        · intro c hc
          rw [← h.2] at hc
          exact List.mem_takeWhile_imp hc
      · simp [hc] at h

theorem FindStringSubmatch_of_matchHere {items : List PatItem} {s whole g : Str}
    (h : matchHere items s = some (whole, g)) : FindStringSubmatch items s = [whole, g] := by
  cases s <;> simp [FindStringSubmatch, h]

/-- The search either finds nothing, and then no suffix of the text starts
with a match, or reports a match that starts at some suffix. -/
theorem FindStringSubmatch_cases (items : List PatItem) (s : Str) :
    (FindStringSubmatch items s = [] ∧ ∀ pre t, s = pre ++ t → matchHere items t = none) ∨
    (∃ pre t whole g, s = pre ++ t ∧ matchHere items t = some (whole, g) ∧
      FindStringSubmatch items s = [whole, g]) := by
  induction s with
  | nil =>
    cases hm : matchHere items [] with
    | none =>
      left
      refine ⟨by simp [FindStringSubmatch, hm], fun pre t e => ?_⟩
      have : t = [] := by
        have := congrArg List.length e
        simp at this
        exact List.eq_nil_of_length_eq_zero (by omega)
      rw [this, hm]
    | some r =>
      right
      exact ⟨[], [], r.1, r.2, rfl, hm, by simp [FindStringSubmatch, hm]⟩
  | cons c cs ih =>
    cases hm : matchHere items (c :: cs) with
    | some r =>
      right
      exact ⟨[], c :: cs, r.1, r.2, rfl, hm, by simp [FindStringSubmatch, hm]⟩
    | none =>
      rcases ih with ⟨h0, hall⟩ | ⟨pre, t, whole, g, e, hmt, hf⟩
      · left
        refine ⟨by simp [FindStringSubmatch, hm, h0], fun pre t e => ?_⟩
        cases pre with
        | nil =>
          simp at e
          rw [← e, hm]
        | cons a as =>
          simp at e
          exact hall as t e.2
      · right
        exact ⟨c :: pre, t, whole, g, by simp [e], hmt, by simp [FindStringSubmatch, hm, hf]⟩

/-! ## Lemmas on `sliceAndModulePath` -/

theorem stringsCut_fst (s : Str) (sep : Char) :
    (stringsCut s sep).1 = s.takeWhile (fun c => c != sep) := by
  unfold stringsCut
  split
  · rfl
  · rename_i h
    symm
    rw [List.takeWhile_eq_self_iff]
    intro c hc
    have : c ≠ sep := fun e => h (by simpa [e] using hc)
    simpa using this

theorem stringsCut_found (s : Str) (sep : Char) (h : (stringsCut s sep).2.2 = true) :
    s = (stringsCut s sep).1 ++ sep :: (stringsCut s sep).2.1 := by
  unfold stringsCut at h ⊢
  by_cases hc : s.contains sep = true
  · simp only [hc, if_true]
    have hd : ∀ t : Str, sep ∈ t →
        t.dropWhile (fun c => c != sep) = sep :: (t.dropWhile (fun c => c != sep)).tail := by
      intro t
      induction t with
      | nil => simp
      | cons a as ih =>
        intro hm
        by_cases ha : a = sep
        · simp [List.dropWhile, ha]
        · have hb : (a != sep) = true := by simp [ha]
          have : sep ∈ as := by
            rcases List.mem_cons.1 hm with e | e
            · exact absurd e.symm ha
            · exact e
          simpa [List.dropWhile, hb] using ih this
    have hmem : sep ∈ s := by simpa using hc
    have := List.takeWhile_append_dropWhile (fun c => c != sep) s
    rw [hd s hmem] at this
    exact this.symm
  · have hmem : sep ∉ s := by simpa using hc
    simp [hmem] at h

theorem explicit_iff (t : Str) :
    ((stringsCut t '.').2.2 && SliceNames (stringsCut t '.').1) = true ↔ hasExplicitSlice t := by
  constructor
  · intro h
    simp only [Bool.and_eq_true] at h
    exact ⟨_, _, stringsCut_found t '.' h.1, h.2⟩
  · rintro ⟨slice, rest, e, hs⟩
    rw [e, stringsCut_append (dot_not_mem_of_SliceNames hs)]
    simp [hs]

theorem slash_not_mem_of_SliceNames {name : Str} (h : SliceNames name = true) : '/' ∉ name := by
  rcases (SliceNames_iff name).1 h with e | e <;> subst e <;> decide

theorem slash_not_mem_of_word {w : Str} (h : ∀ c ∈ w, isWordChar c = true) : '/' ∉ w := by
  intro hm
  have := h _ hm
  revert this
  decide

/-- Whatever slice name a call settles on contains no `/`. -/
theorem sliceAndModulePath_slice {currentLine currentURI rootURI s p : Str}
    (h : sliceAndModulePath currentLine currentURI rootURI = Outcome.ret (some (s, p))) :
    '/' ∉ s := by
  unfold sliceAndModulePath at h
  simp only at h
  split at h
  · rename_i hc
    simp only [Bool.and_eq_true] at hc
    simp only [Outcome.ret.injEq, Option.some.injEq, Prod.mk.injEq] at h
    rw [← h.1]
    exact slash_not_mem_of_SliceNames hc.2
  · split at h
    · cases h
    · cases h
    · rename_i re _
      rcases FindStringSubmatch_cases re currentURI with ⟨h0, _⟩ | ⟨pre, t, whole, g, _, hm, hf⟩
      · simp [h0] at h
      · simp only [hf, List.length_cons, List.length_nil] at h
        simp only [Nat.reduceAdd, Nat.lt_irrefl, if_false, Outcome.ret.injEq, Option.some.injEq,
          Prod.mk.injEq] at h
        obtain ⟨post, _, hw⟩ := run_of_matchHere hm
        have : g = s := by simpa using h.1
        rw [← this]
        exact slash_not_mem_of_word hw

theorem GetDefinitionURI_of_pair {currentLine currentURI rootURI s p : Str}
    (h : sliceAndModulePath currentLine currentURI rootURI = Outcome.ret (some (s, p))) :
    GetDefinitionURI currentLine currentURI rootURI =
      Outcome.ret (rootURI ++ "/slices/".toList ++ s ++ "/".toList ++
        (stringsReplace p '.' '/' ++ ".rb".toList), none) := by
  simp [GetDefinitionURI, h]

/-- Under a root URI whose only special character is `.` every call is
covered by the model: it returns a pair or the slice error. -/
theorem sliceAndModulePath_total {rootURI : Str}
    (hroot : ∀ c ∈ rootURI, c = '.' ∨ c ∉ regexpSpecial) (currentLine currentURI : Str) :
    ∃ r, sliceAndModulePath currentLine currentURI rootURI = Outcome.ret r := by
  obtain ⟨items, hc, _⟩ := compileRoot_self rootURI hroot
  have hcomp := regexpMustCompile_of_compileRoot hroot hc
  unfold sliceAndModulePath
  simp only [hcomp]
  split
  · exact ⟨_, rfl⟩
  · split
    · exact ⟨_, rfl⟩
    · exact ⟨_, rfl⟩

theorem pair_of_GetDefinitionURI {currentLine currentURI rootURI dest : Str}
    (h : GetDefinitionURI currentLine currentURI rootURI = Outcome.ret (dest, none)) :
    ∃ s p, sliceAndModulePath currentLine currentURI rootURI = Outcome.ret (some (s, p)) := by
  unfold GetDefinitionURI at h
  split at h
  · rename_i s p hp
    exact ⟨s, p, hp⟩
  · simp at h
  · cases h
  · cases h

/-- For a root URI without special characters the search succeeds exactly
on the current URIs that contain rootURI + "/slices/" + w + "/". -/
theorem FindStringSubmatch_literal (rootURI currentURI : Str) :
    (FindStringSubmatch (rootURI.map PatItem.lit) currentURI = [] ∧
      ¬ hasSliceOccurrence rootURI currentURI) ∨
    (hasSliceOccurrence rootURI currentURI ∧
      ∃ whole g, FindStringSubmatch (rootURI.map PatItem.lit) currentURI = [whole, g]) := by
  have hl : rootURI.map PatItem.lit ++ slicesItems =
      (rootURI ++ "/slices/".toList).map PatItem.lit := by
    simp [slicesItems]
  rcases FindStringSubmatch_cases (rootURI.map PatItem.lit) currentURI with
    ⟨h0, hall⟩ | ⟨pre, t, whole, g, e, hm, hf⟩
  · left
    refine ⟨h0, ?_⟩
    rintro ⟨pre, w, post, hw, e⟩
    have hrun : matchItems (rootURI.map PatItem.lit ++ slicesItems)
        (rootURI ++ "/slices/".toList ++ w ++ '/' :: post) = some (w ++ '/' :: post) := by
      rw [hl]
      exact (matchItems_lits _ _ _).2 (by simp)
    obtain ⟨whole, hh⟩ := matchHere_of_run hrun hw
    rw [hall pre _ e] at hh
    cases hh
  · right
    obtain ⟨post, hrun, hw⟩ := run_of_matchHere hm
    rw [hl] at hrun
    have ht := (matchItems_lits _ _ _).1 hrun
    exact ⟨⟨pre, g, post, hw, by rw [e, ht]; simp⟩, whole, g, hf⟩

/-! ## Lemmas on the handler -/

theorem sliceIndex_some_lt {α : Type} {xs : List α} {i : Int} {x : α}
    (h : sliceIndex xs i = some x) : ¬ i > (xs.length : Int) := by
  unfold sliceIndex at h
  split at h
  · have := (List.get?_eq_some.1 h).1
    omega
  · cases h

/-- On an in-range line of a stored document the handler either returns the
parse error or runs the stages that start with the lookup of the Deps
declaration. -/
theorem handle_eq_stages {env : Env} {state : State} {request : DefinitionRequest}
    {document currentLine : Str}
    (hdoc : state.Documents request.URI = some document)
    (hline : sliceIndex (stringsSplit document (Char.ofNat 10)) request.Position.Line
      = some currentLine)
    (hsome : ¬ (lookupSymbol env currentLine request.Position = [] ∧
      (GetSymbolAndMethodNameToLookup env currentLine request.Position).2 = [])) :
    handleTextDocumentDefinition env state request =
      stagesFromDepsLookup env state request document
        (lookupSymbol env currentLine request.Position)
        (GetSymbolAndMethodNameToLookup env currentLine request.Position).2 := by
  unfold handleTextDocumentDefinition
  simp only [hdoc]
  rw [if_neg (sliceIndex_some_lt hline), hline]
  simp only
  rw [if_neg hsome]

theorem handle_both_empty {env : Env} {state : State} {request : DefinitionRequest}
    {document currentLine : Str}
    (hdoc : state.Documents request.URI = some document)
    (hline : sliceIndex (stringsSplit document (Char.ofNat 10)) request.Position.Line
      = some currentLine)
    (hnone : lookupSymbol env currentLine request.Position = [] ∧
      (GetSymbolAndMethodNameToLookup env currentLine request.Position).2 = []) :
    handleTextDocumentDefinition env state request =
      Outcome.ret (zeroResponse,
        some (GoError.ErrorCouldNotParseSymbolAndMethodName request.URI
          request.Position.Line [])) := by
  unfold handleTextDocumentDefinition
  simp only [hdoc]
  rw [if_neg (sliceIndex_some_lt hline), hline]
  simp only
  rw [if_pos hnone]

/-- A run of the stages that ends without error went through each of them:
the Deps lookup and `GetDefinitionURI` returned, and the response carries
the destination and the position component of `GetPositionForMethodInFile`. -/
theorem stages_success {env : Env} {state : State} {request : DefinitionRequest}
    {document symbolName methodName : Str} {resp : DefinitionResponse}
    (h : stagesFromDepsLookup env state request document symbolName methodName =
      Outcome.ret (resp, none)) :
    ∃ depsLine dest pos err,
      GetIncludeDepsLine env document symbolName = Outcome.ret depsLine ∧
      GetDefinitionURI depsLine request.URI state.RootURI = Outcome.ret (dest, none) ∧
      GetPositionForMethodInFile env dest methodName = Outcome.ret (pos, err) ∧
      resp =
        { RPC := "2.0".toList, ID := some request.ID,
          Result := { URI := dest, Range := LineRange pos.Line pos.Character pos.Character } } := by
  unfold stagesFromDepsLookup at h
  split at h
  · cases h
  · cases h
  · rename_i depsLine hdeps
    split at h
    · simp at h
    · split at h
      · cases h
      · cases h
      · simp at h
      · rename_i dest hdest
        split at h
        · simp at h
        · split at h
          · cases h
          · cases h
          · rename_i pos err hpos
            refine ⟨depsLine, dest, pos, err, hdeps, hdest, hpos, ?_⟩
            simp only [Outcome.ret.injEq, Prod.mk.injEq, and_true] at h
            exact h.symm

/-- The stages from the Deps lookup on never end with the parse error, as
long as the file system reports errors of the operating system. -/
theorem stages_ne_parse_error {env : Env} {state : State} {request : DefinitionRequest}
    {document symbolName methodName uri rawLine : Str} {line : Int}
    (hstat : ∀ path err, env.stat path = some err → ∃ p, err = GoError.osError p) :
    stagesFromDepsLookup env state request document symbolName methodName ≠
      Outcome.ret (zeroResponse,
        some (GoError.ErrorCouldNotParseSymbolAndMethodName uri line rawLine)) := by
  intro h
  unfold stagesFromDepsLookup at h
  split at h
  · cases h
  · cases h
  · split at h
    · simp [errNoDepsMatch] at h
    · split at h
      · cases h
      · cases h
      · rename_i dest err hdest
        simp only [Outcome.ret.injEq, Prod.mk.injEq, Option.some.injEq, true_and] at h
        subst h
        unfold GetDefinitionURI at hdest
        split at hdest <;> simp [errSliceUnresolvable] at hdest
      · split at h
        · rename_i err hs
          simp only [Outcome.ret.injEq, Prod.mk.injEq, Option.some.injEq, true_and] at h
          subst h
          obtain ⟨p, hp⟩ := hstat _ _ hs
          cases hp
        · split at h
          · cases h
          · cases h
          · simp at h

/-! ## Claims -/

/-- C1: with an explicit slice qualifier, i.e. whenever the trimmed
declaration is `slice.rest` with `slice` a known slice name, `GetDefinitionURI`
succeeds for every root URI and every current URI and returns
rootURI + "/slices/" + slice + "/" + rest with every "." replaced by "/" + ".rb". -/
theorem GetDefinitionURI_explicit_slice (currentLine currentURI rootURI slice rest : Str)
    (htrim : stringsTrim currentLine trimCutset = slice ++ '.' :: rest)
    (hslice : SliceNames slice = true) :
    GetDefinitionURI currentLine currentURI rootURI =
      Outcome.ret (rootURI ++ "/slices/".toList ++ slice ++ "/".toList ++
        (stringsReplace rest '.' '/' ++ ".rb".toList), none) := by
  have hcut := stringsCut_append (b := rest) (dot_not_mem_of_SliceNames hslice)
  simp [GetDefinitionURI, sliceAndModulePath, htrim, hcut, hslice]

/-- Witness of C1: "collaborations.c.d", from a current file that lies under no slice. -/
theorem GetDefinitionURI_explicit_slice_witness :
    GetDefinitionURI "\"collaborations.c.d\",".toList "file:///elsewhere/x.rb".toList
        "file:///root".toList =
      Outcome.ret ("file:///root/slices/collaborations/c/d.rb".toList, none) :=
  GetDefinitionURI_explicit_slice "\"collaborations.c.d\",".toList "file:///elsewhere/x.rb".toList
    "file:///root".toList "collaborations".toList "c.d".toList (by decide) (by decide)

/-- C2 as stated fails: a first path segment under slices/ that is not made
of word characters (`my-slice`) is not inferred, the call returns the
error; and a root URI that is not a valid regexp (`+`) makes the call panic. -/
theorem GetDefinitionURI_infers_slice_counterexample :
    SliceNames ("a.b".toList.takeWhile (fun c => c != '.')) = false ∧
    GetDefinitionURI "a.b".toList
        ("r".toList ++ "/slices/".toList ++ "my-slice".toList ++ "/".toList ++ "x.rb".toList)
        "r".toList = Outcome.ret ([], some errSliceUnresolvable) ∧
    GetDefinitionURI "a.b".toList
        ("+".toList ++ "/slices/".toList ++ "domain".toList ++ "/".toList ++ "x.rb".toList)
        "+".toList = Outcome.panic PanicReason.regexpSyntax := by
  decide

/-- C2, amended: for a root URI whose only regexp special character is `.`,
a current URI rootURI + "/slices/" + name + "/" + rest with `name` a run of
word characters `[0-9A-Za-z_]`, and a declaration whose trimmed text does not
start with a known slice name before its first ".", `GetDefinitionURI`
succeeds with rootURI + "/slices/" + name + "/" + trimmed declaration with
every "." replaced by "/" + ".rb". -/
theorem GetDefinitionURI_infers_slice (currentLine rootURI name rest : Str)
    (hroot : ∀ c ∈ rootURI, c = '.' ∨ c ∉ regexpSpecial)
    (hname : ∀ c ∈ name, isWordChar c = true)
    (hdecl : SliceNames ((stringsTrim currentLine trimCutset).takeWhile (fun c => c != '.'))
      = false) :
    GetDefinitionURI currentLine
        (rootURI ++ "/slices/".toList ++ name ++ "/".toList ++ rest) rootURI =
      Outcome.ret (rootURI ++ "/slices/".toList ++ name ++ "/".toList ++
        (stringsReplace (stringsTrim currentLine trimCutset) '.' '/' ++ ".rb".toList), none) := by
  obtain ⟨items, hc, hm⟩ := compileRoot_self rootURI hroot
  have hcomp := regexpMustCompile_of_compileRoot hroot hc
  have hrun : matchItems (items ++ slicesItems)
      (rootURI ++ "/slices/".toList ++ name ++ "/".toList ++ rest) = some (name ++ '/' :: rest) := by
    have e : rootURI ++ "/slices/".toList ++ name ++ "/".toList ++ rest =
        rootURI ++ ("/slices/".toList ++ (name ++ '/' :: rest)) := by simp
    rw [matchItems_append, e, hm, Option.some_bind]
    exact (matchItems_lits _ _ _).2 rfl
  obtain ⟨whole, hh⟩ := matchHere_of_run hrun hname
  have hf := FindStringSubmatch_of_matchHere hh
  have hcut : SliceNames (stringsCut (stringsTrim currentLine trimCutset) '.').1 = false := by
    rw [stringsCut_fst]
    exact hdecl
  apply GetDefinitionURI_of_pair
  unfold sliceAndModulePath
  simp only [hcut, Bool.and_false, Bool.false_eq_true, if_false, hcomp, hf]
  rfl

/-- Witness of C2: the declaration and URIs of TestGetDefinitionURI. -/
theorem GetDefinitionURI_infers_slice_witness :
    GetDefinitionURI
        "           \"operations.commands.services.validation_goal_publishable\",".toList
        ("file:///Users/ayden.aba/Documents/ca/code/goals-service".toList ++ "/slices/".toList ++
          "domain".toList ++ "/".toList ++ "operations/commands/create_published_goal.rb".toList)
        "file:///Users/ayden.aba/Documents/ca/code/goals-service".toList =
      Outcome.ret ("file:///Users/ayden.aba/Documents/ca/code/goals-service/slices/domain/operations/commands/services/validation_goal_publishable.rb".toList,
        none) :=
  GetDefinitionURI_infers_slice
    "           \"operations.commands.services.validation_goal_publishable\",".toList
    "file:///Users/ayden.aba/Documents/ca/code/goals-service".toList "domain".toList
    "operations/commands/create_published_goal.rb".toList (by decide) (by decide) (by decide)

/-- C3 as stated fails: the module paths `a.b` and `a/b` under the slice
`domain` are different pairs that resolve to the same URI. -/
theorem GetDefinitionURI_injective_counterexample :
    sliceAndModulePath "domain.a.b".toList "x".toList "r".toList =
        Outcome.ret (some ("domain".toList, "a.b".toList)) ∧
    sliceAndModulePath "domain.a/b".toList "x".toList "r".toList =
        Outcome.ret (some ("domain".toList, "a/b".toList)) ∧
    ("domain".toList, "a.b".toList) ≠ ("domain".toList, "a/b".toList) ∧
    GetDefinitionURI "domain.a.b".toList "x".toList "r".toList =
        Outcome.ret ("r/slices/domain/a/b.rb".toList, none) ∧
    GetDefinitionURI "domain.a/b".toList "x".toList "r".toList =
        Outcome.ret ("r/slices/domain/a/b.rb".toList, none) := by
  decide

/-- C3, amended: for a fixed root URI whose only regexp special character is
`.`, every call returns, every successful call settles on a pair
(slice name, module path), and two calls that settle on different pairs,
neither module path containing "/", both succeed and return different URIs. -/
theorem GetDefinitionURI_injective (rootURI : Str)
    (hroot : ∀ c ∈ rootURI, c = '.' ∨ c ∉ regexpSpecial) :
    (∀ line uri : Str, ∃ r, GetDefinitionURI line uri rootURI = Outcome.ret r) ∧
    (∀ line uri dest : Str, GetDefinitionURI line uri rootURI = Outcome.ret (dest, none) →
      ∃ s p, sliceAndModulePath line uri rootURI = Outcome.ret (some (s, p))) ∧
    (∀ line1 uri1 line2 uri2 s1 p1 s2 p2 : Str,
      sliceAndModulePath line1 uri1 rootURI = Outcome.ret (some (s1, p1)) →
      sliceAndModulePath line2 uri2 rootURI = Outcome.ret (some (s2, p2)) →
      (s1, p1) ≠ (s2, p2) → '/' ∉ p1 → '/' ∉ p2 →
      ∃ dest1 dest2, GetDefinitionURI line1 uri1 rootURI = Outcome.ret (dest1, none) ∧
        GetDefinitionURI line2 uri2 rootURI = Outcome.ret (dest2, none) ∧ dest1 ≠ dest2) := by
  refine ⟨fun line uri => ?_, fun line uri dest h => pair_of_GetDefinitionURI h, ?_⟩
  · obtain ⟨r, hr⟩ := sliceAndModulePath_total hroot line uri
    cases r with
    | none => exact ⟨([], some errSliceUnresolvable), by simp [GetDefinitionURI, hr]⟩
    | some sp => exact ⟨_, GetDefinitionURI_of_pair (s := sp.1) (p := sp.2) hr⟩
  · intro line1 uri1 line2 uri2 s1 p1 s2 p2 h1 h2 hne hp1 hp2
    refine ⟨_, _, GetDefinitionURI_of_pair h1, GetDefinitionURI_of_pair h2, fun e => hne ?_⟩
    have e2 : s1 ++ '/' :: (stringsReplace p1 '.' '/' ++ ".rb".toList) =
        s2 ++ '/' :: (stringsReplace p2 '.' '/' ++ ".rb".toList) := by
      have e3 : rootURI ++ "/slices/".toList ++
            (s1 ++ '/' :: (stringsReplace p1 '.' '/' ++ ".rb".toList)) =
          rootURI ++ "/slices/".toList ++
            (s2 ++ '/' :: (stringsReplace p2 '.' '/' ++ ".rb".toList)) := by
        simpa using e
      exact List.append_cancel_left e3
    obtain ⟨es, ep⟩ :=
      append_sep_inj (sliceAndModulePath_slice h1) (sliceAndModulePath_slice h2) e2
    have ep2 := stringsReplace_injective hp1 hp2 (List.append_cancel_right ep)
    rw [es, ep2]

/-- Witness of C3: `a.b` under the inferred slice `domain` and `c.d` under
the explicit slice `collaborations`. -/
theorem GetDefinitionURI_injective_witness :
    ∃ dest1 dest2,
      GetDefinitionURI "a.b".toList "r/slices/domain/x.rb".toList "r".toList
        = Outcome.ret (dest1, none) ∧
      GetDefinitionURI "collaborations.c.d".toList "r/slices/domain/x.rb".toList "r".toList
        = Outcome.ret (dest2, none) ∧ dest1 ≠ dest2 :=
  (GetDefinitionURI_injective "r".toList (by decide)).2.2
    "a.b".toList "r/slices/domain/x.rb".toList
    "collaborations.c.d".toList "r/slices/domain/x.rb".toList
    "domain".toList "a.b".toList "collaborations".toList "c.d".toList
    (by decide) (by decide) (by decide) (by decide) (by decide)

/-- C4 as stated fails: the root URI is read as a regexp, so with the root
`a.c` the current URI `abc/slices/x/y.rb`, which does not contain
`a.c/slices/`, still yields a URI and no error; and with the root `+` the
call panics although the current URI contains `+/slices/x/`. -/
theorem GetDefinitionURI_error_iff_counterexample :
    ¬ hasExplicitSlice (stringsTrim "a.b".toList trimCutset) ∧
    ¬ ("a.c/slices/".toList <:+: "abc/slices/x/y.rb".toList) ∧
    GetDefinitionURI "a.b".toList "abc/slices/x/y.rb".toList "a.c".toList =
      Outcome.ret ("a.c/slices/x/a/b.rb".toList, none) ∧
    GetDefinitionURI "a.b".toList "+/slices/x/y.rb".toList "+".toList =
      Outcome.panic PanicReason.regexpSyntax := by
  refine ⟨fun h => ?_, by decide, by decide, by decide⟩
  have := (explicit_iff _).2 h
  revert this
  decide

/-- C4, amended: for a root URI without regexp special characters,
`GetDefinitionURI` returns the error "unable to infer current slice name"
with an empty URI exactly when the trimmed declaration has no explicit
known-slice qualifier and the current URI contains no occurrence of
rootURI + "/slices/" + w + "/" with `w` a run of word characters; in every
other case it returns a URI and no error. -/
theorem GetDefinitionURI_error_iff (currentLine currentURI rootURI : Str)
    (hroot : ∀ c ∈ rootURI, c ∉ regexpSpecial) :
    (GetDefinitionURI currentLine currentURI rootURI =
        Outcome.ret ([], some errSliceUnresolvable) ↔
      ¬ hasExplicitSlice (stringsTrim currentLine trimCutset) ∧
        ¬ hasSliceOccurrence rootURI currentURI) ∧
    (¬ (¬ hasExplicitSlice (stringsTrim currentLine trimCutset) ∧
        ¬ hasSliceOccurrence rootURI currentURI) →
      ∃ dest, GetDefinitionURI currentLine currentURI rootURI = Outcome.ret (dest, none)) := by
  have hcomp : regexpMustCompile rootURI = Compiled.prog (rootURI.map PatItem.lit) :=
    regexpMustCompile_of_compileRoot (fun c hc => Or.inr (hroot c hc))
      (compileRoot_literal rootURI hroot)
  by_cases hex : hasExplicitSlice (stringsTrim currentLine trimCutset)
  · have hb := (explicit_iff _).2 hex
    have hp : sliceAndModulePath currentLine currentURI rootURI = Outcome.ret (some
        ((stringsCut (stringsTrim currentLine trimCutset) '.').1,
          (stringsCut (stringsTrim currentLine trimCutset) '.').2.1)) := by
      unfold sliceAndModulePath
      simp only [hb, if_true]
    have hg := GetDefinitionURI_of_pair hp
    refine ⟨⟨fun h => ?_, fun h => absurd hex h.1⟩, fun _ => ⟨_, hg⟩⟩
    rw [hg] at h
    simp only [Outcome.ret.injEq, Prod.mk.injEq] at h
    exact absurd h.2 (by simp)
  · have hb : ((stringsCut (stringsTrim currentLine trimCutset) '.').2.2 &&
        SliceNames (stringsCut (stringsTrim currentLine trimCutset) '.').1) = false :=
      Bool.eq_false_iff.2 (fun h => hex ((explicit_iff _).1 h))
    rcases FindStringSubmatch_literal rootURI currentURI with ⟨h0, hno⟩ | ⟨hocc, whole, g, hf⟩
    · have hp : sliceAndModulePath currentLine currentURI rootURI = Outcome.ret none := by
        unfold sliceAndModulePath
        simp only [hb, Bool.false_eq_true, if_false, hcomp, h0]
        rfl
      have hg : GetDefinitionURI currentLine currentURI rootURI =
          Outcome.ret ([], some errSliceUnresolvable) := by
        simp [GetDefinitionURI, hp]
      exact ⟨⟨fun _ => ⟨hex, hno⟩, fun _ => hg⟩, fun h => absurd ⟨hex, hno⟩ h⟩
    · have hp : sliceAndModulePath currentLine currentURI rootURI =
          Outcome.ret (some (g, stringsTrim currentLine trimCutset)) := by
        unfold sliceAndModulePath
        simp only [hb, Bool.false_eq_true, if_false, hcomp, hf]
        rfl
      have hg := GetDefinitionURI_of_pair hp
      refine ⟨⟨fun h => ?_, fun h => absurd hocc h.2⟩, fun _ => ⟨_, hg⟩⟩
      rw [hg] at h
      simp only [Outcome.ret.injEq, Prod.mk.injEq] at h
      exact absurd h.2 (by simp)

/-- Witness of C4: a bare declaration and a current file outside slices/. -/
theorem GetDefinitionURI_error_iff_witness :
    (GetDefinitionURI "a.b".toList "file:///root/lib/x.rb".toList "file:///root".toList =
        Outcome.ret ([], some errSliceUnresolvable) ↔
      ¬ hasExplicitSlice (stringsTrim "a.b".toList trimCutset) ∧
        ¬ hasSliceOccurrence "file:///root".toList "file:///root/lib/x.rb".toList) ∧
    (¬ (¬ hasExplicitSlice (stringsTrim "a.b".toList trimCutset) ∧
        ¬ hasSliceOccurrence "file:///root".toList "file:///root/lib/x.rb".toList) →
      ∃ dest, GetDefinitionURI "a.b".toList "file:///root/lib/x.rb".toList "file:///root".toList
        = Outcome.ret (dest, none)) :=
  GetDefinitionURI_error_iff "a.b".toList "file:///root/lib/x.rb".toList "file:///root".toList
    (by decide)

/-- C5 as stated fails: a tab is whitespace but is not trimmed, so the
declaration `domain.a` behind a tab loses its slice qualifier. -/
theorem GetDefinitionURI_frame_counterexample :
    "\t".toList.all Char.isWhitespace = true ∧
    GetDefinitionURI ("\t".toList ++ "domain.a".toList ++ []) "r/slices/collaborations/x.rb".toList
        "r".toList = Outcome.ret ("r/slices/collaborations/\tdomain/a.rb".toList, none) ∧
    GetDefinitionURI "domain.a".toList "r/slices/collaborations/x.rb".toList "r".toList =
      Outcome.ret ("r/slices/domain/a.rb".toList, none) := by
  decide

/-- C5, amended: a prefix and a suffix written only with spaces, double
quotes and commas do not change the result of `GetDefinitionURI`. -/
theorem GetDefinitionURI_frame (p d s currentURI rootURI : Str)
    (hp : ∀ c ∈ p, c = ' ' ∨ c = Char.ofNat 34 ∨ c = ',')
    (hs : ∀ c ∈ s, c = ' ' ∨ c = Char.ofNat 34 ∨ c = ',') :
    GetDefinitionURI (p ++ d ++ s) currentURI rootURI = GetDefinitionURI d currentURI rootURI := by
  have hcut : ∀ c : Char, (c = ' ' ∨ c = Char.ofNat 34 ∨ c = ',') → c ∈ trimCutset := by
    rintro c (e | e | e) <;> rw [e] <;> decide
  have e := stringsTrim_frame p d s trimCutset (fun c hc => hcut c (hp c hc))
    (fun c hc => hcut c (hs c hc))
  unfold GetDefinitionURI sliceAndModulePath
  rw [e]

/-- Witness of C5: the indented, quoted and comma-terminated declaration
of TestGetDefinitionURI. -/
theorem GetDefinitionURI_frame_witness :
    GetDefinitionURI ("           \"".toList ++ "operations.transaction".toList ++ "\",".toList)
        "r/slices/domain/x.rb".toList "r".toList =
      GetDefinitionURI "operations.transaction".toList "r/slices/domain/x.rb".toList "r".toList :=
  GetDefinitionURI_frame "           \"".toList "operations.transaction".toList "\",".toList
    "r/slices/domain/x.rb".toList "r".toList (by decide) (by decide)

/-- C6: for every stored document and every requested line strictly greater
than the number of lines of the document (split on "\n"), the handler
returns ErrorLineOutOfDocumentRange with the requested uri and line, next to
the zero response (no location). -/
theorem handleTextDocumentDefinition_line_out_of_range (env : Env) (state : State)
    (request : DefinitionRequest) (document : Str)
    (hdoc : state.Documents request.URI = some document)
    (hline : request.Position.Line > ((stringsSplit document (Char.ofNat 10)).length : Int)) :
    handleTextDocumentDefinition env state request =
      Outcome.ret (zeroResponse,
        some (GoError.ErrorLineOutOfDocumentRange request.URI request.Position.Line)) := by
  unfold handleTextDocumentDefinition
  simp only [hdoc]
  rw [if_pos hline]

/-- Witness of C6: line 9999 of the sample document. -/
theorem handleTextDocumentDefinition_line_out_of_range_witness :
    handleTextDocumentDefinition sampleEnv sampleState (sampleRequest 9999 0) =
      Outcome.ret (zeroResponse, some (GoError.ErrorLineOutOfDocumentRange sampleURI 9999)) :=
  handleTextDocumentDefinition_line_out_of_range sampleEnv sampleState (sampleRequest 9999 0)
    sampleDocument (by decide) (by decide)

/-- C7, what the code does: for every stored document, a request whose line
equals the number of lines passes the bounds check and then panics on the
read `lines[curLineNum]`, index out of range. -/
theorem handleTextDocumentDefinition_line_at_count (env : Env) (state : State)
    (request : DefinitionRequest) (document : Str)
    (hdoc : state.Documents request.URI = some document)
    (hline : request.Position.Line = ((stringsSplit document (Char.ofNat 10)).length : Int)) :
    handleTextDocumentDefinition env state request =
      Outcome.panic (PanicReason.indexOutOfRange request.Position.Line
        (stringsSplit document (Char.ofNat 10)).length) := by
  have hidx : sliceIndex (stringsSplit document (Char.ofNat 10)) request.Position.Line = none := by
    unfold sliceIndex
    rw [hline]
    simp
  unfold handleTextDocumentDefinition
  simp only [hdoc]
  rw [if_neg (by omega), hidx]

/-- The failing input of C7: line 15 of the sample document, which has the
15 lines 0 to 14. -/
theorem handleTextDocumentDefinition_line_at_count_witness :
    (stringsSplit sampleDocument (Char.ofNat 10)).length = 15 ∧
    handleTextDocumentDefinition sampleEnv sampleState (sampleRequest 15 0) =
      Outcome.panic (PanicReason.indexOutOfRange 15 15) :=
  ⟨by decide,
    handleTextDocumentDefinition_line_at_count sampleEnv sampleState (sampleRequest 15 0)
      sampleDocument (by decide) (by decide)⟩

/-- C8, what the code does: on the call `validate_relationships.call` of the
sample document the method lookup fails (the target also declares
`initialize`, whose name does not match), yet the handler returns a location,
the start of the target file, and no error. -/
theorem handleTextDocumentDefinition_drops_method_error :
    GetSymbolAndMethodNameToLookup sampleEnv sampleCallLine (sampleRequest 9 35).Position =
      ("validate_relationships".toList, "call".toList) ∧
    GetPositionForMethodInFile sampleEnv
        "file:///root/slices/domain/operations/commands/services/validate_relationships.rb".toList
        "call".toList =
      Outcome.ret ({ Line := 0, Character := 0 },
        some (errMethodUnresolved "call".toList
          "file:///root/slices/domain/operations/commands/services/validate_relationships.rb".toList)) ∧
    handleTextDocumentDefinition sampleEnv sampleState (sampleRequest 9 35) =
      Outcome.ret
        ({ RPC := "2.0".toList, ID := some 1,
           Result := {
             URI := "file:///root/slices/domain/operations/commands/services/validate_relationships.rb".toList,
             Range := LineRange 0 0 0 } },
          none) := by
  decide

/-- C9, what the code does: the check `len(m.Captures) != 1` is made on each
match in turn, not on the number of matching declarations.  With `call`
followed by a declaration whose name fails the predicate, exactly one
declaration matches, and the function returns the error although it has
stored the position of `call`; with no declaration at all it returns the
zero Position and no error; with two matching declarations it returns the
start of the last one and no error. -/
theorem GetPositionForMethodInFile_per_match_check :
    GetPositionForMethodInFile
        (methodEnv [methodMatch 3 6 "call".toList, { Captures := [] }])
        "file:///t.rb".toList "call".toList =
      Outcome.ret ({ Line := 3, Character := 6 },
        some (errMethodUnresolved "call".toList "file:///t.rb".toList)) ∧
    GetPositionForMethodInFile (methodEnv []) "file:///t.rb".toList "call".toList =
      Outcome.ret ({ Line := 0, Character := 0 }, none) ∧
    GetPositionForMethodInFile
        (methodEnv [methodMatch 3 6 "call".toList, methodMatch 7 6 "recall".toList])
        "file:///t.rb".toList "call".toList =
      Outcome.ret ({ Line := 7, Character := 6 }, none) := by
  decide

/-- C10: with an empty method name `GetPositionForMethodInFile` returns the
zero Position and no error whatever the file system holds, and every
response that `handleTextDocumentDefinition` returns without error for a
request whose located method name is empty has the Range (0,0)-(0,0) and
the URI that `GetDefinitionURI` returned. -/
theorem empty_method_resolves_to_file :
    (∀ (env : Env) (uri : Str),
      GetPositionForMethodInFile env uri [] =
        Outcome.ret ({ Line := 0, Character := 0 }, none)) ∧
    (∀ (env : Env) (state : State) (request : DefinitionRequest) (document currentLine : Str)
        (resp : DefinitionResponse),
      state.Documents request.URI = some document →
      sliceIndex (stringsSplit document (Char.ofNat 10)) request.Position.Line
        = some currentLine →
      (GetSymbolAndMethodNameToLookup env currentLine request.Position).2 = [] →
      handleTextDocumentDefinition env state request = Outcome.ret (resp, none) →
      resp.Result.Range = { Start := { Line := 0, Character := 0 },
                            End := { Line := 0, Character := 0 } } ∧
      ∃ depsLine,
        GetIncludeDepsLine env document (lookupSymbol env currentLine request.Position) =
          Outcome.ret depsLine ∧
        GetDefinitionURI depsLine request.URI state.RootURI =
          Outcome.ret (resp.Result.URI, none)) := by
  have hzero : ∀ (env : Env) (uri : Str),
      GetPositionForMethodInFile env uri [] =
        Outcome.ret ({ Line := 0, Character := 0 }, none) := by
    intro env uri
    simp [GetPositionForMethodInFile]
  refine ⟨hzero, ?_⟩
  intro env state request document currentLine resp hdoc hline hmethod h
  have hsome : ¬ (lookupSymbol env currentLine request.Position = [] ∧
      (GetSymbolAndMethodNameToLookup env currentLine request.Position).2 = []) := by
    intro hboth
    rw [handle_both_empty hdoc hline hboth] at h
    simp at h
  rw [handle_eq_stages hdoc hline hsome] at h
  obtain ⟨depsLine, dest, pos, err, hdeps, hdest, hpos, hresp⟩ := stages_success h
  rw [hmethod, hzero] at hpos
  simp only [Outcome.ret.injEq, Prod.mk.injEq] at hpos
  subst hresp
  rw [← hpos.1]
  exact ⟨rfl, depsLine, hdeps, hdest⟩

/-- Witness of C10: cursor (5,13), on the entry of the Deps list for the
transaction, yields the file transaction.rb of the slice domain at (0,0)-(0,0). -/
theorem empty_method_resolves_to_file_witness :
    handleTextDocumentDefinition sampleEnv sampleState (sampleRequest 5 13) =
      Outcome.ret
        ({ RPC := "2.0".toList, ID := some 1,
           Result := { URI := "file:///root/slices/domain/operations/transaction.rb".toList,
                       Range := LineRange 0 0 0 } }, none) ∧
    LineRange 0 0 0 = { Start := { Line := 0, Character := 0 },
                        End := { Line := 0, Character := 0 } } ∧
    ∃ depsLine,
      GetIncludeDepsLine sampleEnv sampleDocument
          (lookupSymbol sampleEnv sampleDepsLine (sampleRequest 5 13).Position) =
        Outcome.ret depsLine ∧
      GetDefinitionURI depsLine sampleURI sampleRootURI =
        Outcome.ret ("file:///root/slices/domain/operations/transaction.rb".toList, none) :=
  ⟨by decide,
    empty_method_resolves_to_file.2 sampleEnv sampleState (sampleRequest 5 13) sampleDocument
      sampleDepsLine
      { RPC := "2.0".toList, ID := some 1,
        Result := { URI := "file:///root/slices/domain/operations/transaction.rb".toList,
                    Range := LineRange 0 0 0 } }
      (by decide) (by decide) (by decide) (by decide)⟩

/-! ## Lemmas on the symbol locators -/

theorem getLast?_cons_some {α : Type} (y : α) (ys : List α) :
    ∃ z, (y :: ys).getLast? = some z := by
  cases h : (y :: ys).getLast? with
  | none => simp at h
  | some z => exact ⟨z, rfl⟩

theorem symbolAndMethodLoop_last (position : Position) (found : List QueryMatch)
    (acc : Str × Str) (h : ∀ m ∈ found, m.Captures.length = 2) :
    symbolAndMethodLoop position found acc =
      match (found.filter (spanContains position)).getLast? with
      | some m => pairText m
      | none => acc := by
  induction found generalizing acc with
  | nil => rfl
  | cons m ms ih =>
    have hms : ∀ x ∈ ms, x.Captures.length = 2 := fun x hx => h x (by simp [hx])
    obtain ⟨a, b, hab⟩ := List.length_eq_two.1 (h m (by simp))
    rw [symbolAndMethodLoop, hab]
    simp only
    by_cases hc : (a.Node.Range.StartPoint.Column : Int) ≤ position.Character ∧
        position.Character ≤ (b.Node.Range.EndPoint.Column : Int)
    · have hin : spanContains position m = true := by simp [spanContains, hab, hc]
      have hge : position.Character ≥ (a.Node.Range.StartPoint.Column : Int) ∧
          position.Character ≤ (b.Node.Range.EndPoint.Column : Int) := ⟨hc.1, hc.2⟩
      rw [if_pos hge, ih _ hms, List.filter_cons_of_pos hin]
      cases hf : ms.filter (spanContains position) with
      | nil => simp [pairText, hab]
      | cons y ys =>
        obtain ⟨z, hz⟩ := getLast?_cons_some y ys
        simp [List.getLast?_cons_cons, hz]
    · have hout : spanContains position m = false := by simp [spanContains, hab, hc]
      have hge : ¬ (position.Character ≥ (a.Node.Range.StartPoint.Column : Int) ∧
          position.Character ≤ (b.Node.Range.EndPoint.Column : Int)) := fun h2 => hc ⟨h2.1, h2.2⟩
      rw [if_neg hge, ih _ hms, List.filter_cons_of_neg (by simp [hout])]

theorem foldl_allCaptures {β : Type} (g : β → QueryCapture → β) (found : List QueryMatch)
    (init : β) :
    found.foldl (fun acc m => m.Captures.foldl g acc) init = (allCaptures found).foldl g init := by
  induction found generalizing init with
  | nil => rfl
  | cons m ms ih => simp [allCaptures, List.foldl_append, ih]

theorem foldl_collect (p : QueryCapture → Bool) (l : List QueryCapture) (init : List Node) :
    l.foldl (fun acc c => if p c = true then acc ++ [c.Node] else acc) init =
      init ++ (l.filter p).map QueryCapture.Node := by
  induction l generalizing init with
  | nil => simp
  | cons x xs ih =>
    rw [List.foldl_cons, ih]
    by_cases hx : p x = true
    · rw [if_pos hx, List.filter_cons_of_pos hx]
      simp
    · rw [if_neg hx, List.filter_cons_of_neg hx]

theorem getLast?_map_Node (l : List QueryCapture) :
    (l.map QueryCapture.Node).getLast? = l.getLast?.map QueryCapture.Node := by
  induction l with
  | nil => rfl
  | cons x xs ih =>
    cases xs with
    | nil => rfl
    | cons y ys => simpa [List.getLast?_cons_cons] using ih

/-- The panic paths on the sample project: at (5,10) the fallback yields the
string node with its quotes, and the Deps query built from it cannot be run;
the method name `call(` is no regexp. -/
theorem sample_query_panics :
    lookupSymbol sampleEnv sampleDepsLine (sampleRequest 5 10).Position =
      "\"operations.transaction\"".toList ∧
    handleTextDocumentDefinition sampleEnv sampleState (sampleRequest 5 10) =
      Outcome.panic PanicReason.queryRun ∧
    GetPositionForMethodInFile sampleEnv
        "file:///root/slices/domain/operations/commands/services/validate_relationships.rb".toList
        "call(".toList = Outcome.panic PanicReason.queryRun := by
  decide

theorem GetSymbolNameToLookup_eq (env : Env) (line : Str) (position : Position) :
    GetSymbolNameToLookup env line position =
      match ((allCaptures (env.nodeQuery line)).filter
        (fun c => columnsContain position c.Node)).getLast? with
      | some c => c.Node.Content
      | none => [] := by
  have hfun : (fun (acc : List Node) (c : QueryCapture) =>
      if position.Character ≥ (c.Node.Range.StartPoint.Column : Int) ∧
          position.Character ≤ (c.Node.Range.EndPoint.Column : Int) then acc ++ [c.Node]
      else acc) =
      (fun acc c => if (fun c => columnsContain position c.Node) c = true then acc ++ [c.Node]
        else acc) := by
    funext acc c
    simp [columnsContain]
  unfold GetSymbolNameToLookup
  simp only
  rw [foldl_allCaptures, hfun, foldl_collect, List.nil_append, getLast?_map_Node]
  cases ((allCaptures (env.nodeQuery line)).filter
    (fun c => columnsContain position c.Node)).getLast? <;> rfl

/-- C11 as stated fails: on the test line the method `call` stands at columns
40 to 43, its node ends at column 44, and a cursor at character 44, just
behind the last character, still yields the pair. -/
theorem GetSymbolAndMethodNameToLookup_single_counterexample :
    locatorEnv.callQuery testCallLine =
      [callMatch 20 "with_failure_prefix".toList "call".toList] ∧
    (testCallLine.drop 40).take 5 = "call(".toList ∧
    (callMatch 20 "with_failure_prefix".toList "call".toList).Captures.map
      (fun c => (c.Node.Range.StartPoint.Column, c.Node.Range.EndPoint.Column))
      = [(20, 39), (40, 44)] ∧
    GetSymbolAndMethodNameToLookup locatorEnv testCallLine { Line := 0, Character := 44 } =
      ("with_failure_prefix".toList, "call".toList) := by
  decide

/-- C11, amended: when the query yields exactly one receiver.method match,
with the receiver starting at column `s` and the last character of the
method at column `e` (so that the method node ends at column `e + 1`), a
cursor character `c` with `s ≤ c ≤ e + 1` returns (receiver text, method
text), and a cursor with `c < s` or `c > e + 1` returns ("", ""). -/
theorem GetSymbolAndMethodNameToLookup_single (env : Env) (line : Str) (position : Position)
    (a b : QueryCapture) (s e : Nat)
    (hquery : env.callQuery line = [{ Captures := [a, b] }])
    (hs : a.Node.Range.StartPoint.Column = s)
    (he : b.Node.Range.EndPoint.Column = e + 1) :
    ((s : Int) ≤ position.Character ∧ position.Character ≤ (e : Int) + 1 →
      GetSymbolAndMethodNameToLookup env line position = (a.Node.Content, b.Node.Content)) ∧
    (position.Character < (s : Int) ∨ position.Character > (e : Int) + 1 →
      GetSymbolAndMethodNameToLookup env line position = ([], [])) := by
  have hcast : (b.Node.Range.EndPoint.Column : Int) = (e : Int) + 1 := by
    rw [he]
    push_cast
    rfl
  unfold GetSymbolAndMethodNameToLookup
  rw [hquery]
  simp only [symbolAndMethodLoop, hs, hcast]
  constructor
  · intro h
    rw [if_pos ⟨h.1, h.2⟩]
  · intro h
    rw [if_neg (by omega)]

/-- Witness of C11: character 41 of the test line yields the pair,
character 45 yields nothing, and so does the line that is only a string. -/
theorem GetSymbolAndMethodNameToLookup_single_witness :
    GetSymbolAndMethodNameToLookup locatorEnv testCallLine { Line := 0, Character := 41 } =
      ("with_failure_prefix".toList, "call".toList) ∧
    GetSymbolAndMethodNameToLookup locatorEnv testCallLine { Line := 0, Character := 45 } =
      ([], []) ∧
    GetSymbolAndMethodNameToLookup locatorEnv testStringLine { Line := 0, Character := 18 } =
      ([], []) :=
  ⟨(GetSymbolAndMethodNameToLookup_single locatorEnv testCallLine { Line := 0, Character := 41 }
      (QueryCapture.mk 0 (sampleNode 0 20 39 "with_failure_prefix".toList))
      (QueryCapture.mk 1 (sampleNode 0 40 44 "call".toList)) 20 43 (by decide) rfl rfl).1
      (by decide),
    (GetSymbolAndMethodNameToLookup_single locatorEnv testCallLine { Line := 0, Character := 45 }
      (QueryCapture.mk 0 (sampleNode 0 20 39 "with_failure_prefix".toList))
      (QueryCapture.mk 1 (sampleNode 0 40 44 "call".toList)) 20 43 (by decide) rfl rfl).2
      (by decide),
    by decide⟩

/-- C12: when every match of the query carries its two captures,
`GetSymbolAndMethodNameToLookup` returns the (receiver, method) text of the
last match, in query order, whose span from the receiver start column to the
method end column contains the cursor character, and ("", "") when the span
of no match contains it. -/
theorem GetSymbolAndMethodNameToLookup_last_wins (env : Env) (line : Str)
    (position : Position)
    (hpairs : ∀ m ∈ env.callQuery line, m.Captures.length = 2) :
    GetSymbolAndMethodNameToLookup env line position =
      match ((env.callQuery line).filter (spanContains position)).getLast? with
      | some m => pairText m
      | none => ([], []) := by
  unfold GetSymbolAndMethodNameToLookup
  exact symbolAndMethodLoop_last position (env.callQuery line) ([], []) hpairs

/-- Witness of C12: two calls on one line, the cursor at (104,30) resolves
to metadata_repo. -/
theorem GetSymbolAndMethodNameToLookup_last_wins_witness :
    GetSymbolAndMethodNameToLookup locatorEnv testMultiCallLine
        { Line := 104, Character := 30 } =
      ("metadata_repo".toList, "build".toList) :=
  (GetSymbolAndMethodNameToLookup_last_wins locatorEnv testMultiCallLine
    { Line := 104, Character := 30 } (by decide)).trans (by decide)

/-- C13: on an in-range line of a stored document the handler takes the
result of the symbol-only locator as the symbol when the paired locator
returns an empty symbol; it returns ErrorCouldNotParseSymbolAndMethodName
with the uri and line of the request and an empty rawLine exactly when
symbol and method are both empty after that fallback; and whenever the
symbol is not empty it runs the stages that start with the lookup of the
Deps declaration for that symbol.  The file system reports errors of the
operating system. -/
theorem handleTextDocumentDefinition_symbol_fallback (env : Env) (state : State)
    (request : DefinitionRequest) (document currentLine : Str)
    (hdoc : state.Documents request.URI = some document)
    (hline : sliceIndex (stringsSplit document (Char.ofNat 10)) request.Position.Line
      = some currentLine)
    (hstat : ∀ path err, env.stat path = some err → ∃ p, err = GoError.osError p) :
    ((GetSymbolAndMethodNameToLookup env currentLine request.Position).1 = [] →
      lookupSymbol env currentLine request.Position =
        GetSymbolNameToLookup env currentLine request.Position) ∧
    ((GetSymbolAndMethodNameToLookup env currentLine request.Position).1 ≠ [] →
      lookupSymbol env currentLine request.Position =
        (GetSymbolAndMethodNameToLookup env currentLine request.Position).1) ∧
    (handleTextDocumentDefinition env state request =
        Outcome.ret (zeroResponse,
          some (GoError.ErrorCouldNotParseSymbolAndMethodName request.URI
            request.Position.Line [])) ↔
      lookupSymbol env currentLine request.Position = [] ∧
        (GetSymbolAndMethodNameToLookup env currentLine request.Position).2 = []) ∧
    (lookupSymbol env currentLine request.Position ≠ [] →
      handleTextDocumentDefinition env state request =
        stagesFromDepsLookup env state request document
          (lookupSymbol env currentLine request.Position)
          (GetSymbolAndMethodNameToLookup env currentLine request.Position).2) := by
  refine ⟨fun h => ?_, fun h => ?_, ⟨fun h => ?_, fun h => handle_both_empty hdoc hline h⟩,
    fun h => handle_eq_stages hdoc hline (fun hb => h hb.1)⟩
  · unfold lookupSymbol
    rw [if_pos h]
  · unfold lookupSymbol
    rw [if_neg h]
  · by_contra hsome
    rw [handle_eq_stages hdoc hline hsome] at h
    exact stages_ne_parse_error hstat h

/-- Witness of C13: on line 74 of the padded document, `        goal`, the
cursor (74,23) lies behind every node of the line and the handler returns
the error with line 74; at (74,10) the paired locator finds no call, the
symbol-only locator yields `goal`, and the handler goes on to the lookup of
the Deps declaration for `goal`, which the document does not have. -/
theorem handleTextDocumentDefinition_symbol_fallback_witness :
    handleTextDocumentDefinition paddedEnv paddedState (sampleRequest 74 23) =
      Outcome.ret (zeroResponse,
        some (GoError.ErrorCouldNotParseSymbolAndMethodName sampleURI 74 [])) ∧
    lookupSymbol paddedEnv paddedLine (sampleRequest 74 10).Position = "goal".toList ∧
    handleTextDocumentDefinition paddedEnv paddedState (sampleRequest 74 10) =
      Outcome.ret (zeroResponse, some (errNoDepsMatch "goal".toList)) :=
  ⟨(handleTextDocumentDefinition_symbol_fallback paddedEnv paddedState (sampleRequest 74 23)
      paddedDocument paddedLine (by decide) (by decide)
      (fun path _ h => ⟨path, (Option.some.inj h).symm⟩)).2.2.1.2 (by decide),
    ((handleTextDocumentDefinition_symbol_fallback paddedEnv paddedState (sampleRequest 74 10)
      paddedDocument paddedLine (by decide) (by decide)
      (fun path _ h => ⟨path, (Option.some.inj h).symm⟩)).1 (by decide)).trans (by decide),
    ((handleTextDocumentDefinition_symbol_fallback paddedEnv paddedState (sampleRequest 74 10)
      paddedDocument paddedLine (by decide) (by decide)
      (fun path _ h => ⟨path, (Option.some.inj h).symm⟩)).2.2.2 (by decide)).trans
      (by decide)⟩

/-- C15: `GetSymbolNameToLookup` returns the text of the last node, in the
sequence of captured nodes in query order, whose column range
[start column, end column] contains the cursor character, and "" when the
range of no node contains it. -/
theorem GetSymbolNameToLookup_most_specific (env : Env) (line : Str) (position : Position) :
    GetSymbolNameToLookup env line position =
      (match ((allCaptures (env.nodeQuery line)).filter
          (fun c => columnsContain position c.Node)).getLast? with
        | some c => c.Node.Content
        | none => []) ∧
    ((∀ c ∈ allCaptures (env.nodeQuery line), columnsContain position c.Node = false) →
      GetSymbolNameToLookup env line position = []) := by
  refine ⟨GetSymbolNameToLookup_eq env line position, fun h => ?_⟩
  have hnil : (allCaptures (env.nodeQuery line)).filter
      (fun c => columnsContain position c.Node) = [] :=
    List.filter_eq_nil_iff.2 (fun c hc => by simp [h c hc])
  rw [GetSymbolNameToLookup_eq, hnil]
  rfl

/-- Witness of C15: character 31 of the line of TestGetSymbolNameToLookup
yields "transaction", and a cursor behind the end of the line yields "". -/
theorem GetSymbolNameToLookup_most_specific_witness :
    GetSymbolNameToLookup locatorEnv testSymbolLine { Line := 91, Character := 31 } =
      "transaction".toList ∧
    GetSymbolNameToLookup locatorEnv testSymbolLine { Line := 91, Character := 60 } = [] :=
  ⟨(GetSymbolNameToLookup_most_specific locatorEnv testSymbolLine
      { Line := 91, Character := 31 }).1.trans (by decide),
    (GetSymbolNameToLookup_most_specific locatorEnv testSymbolLine
      { Line := 91, Character := 60 }).2 (by decide)⟩

end Hanamilsp
